import Mathlib

/-!
Shallow embedding of the admission and dispatch core of the api-gateway
repository, together with theorems settling the specification claims.

Sources embedded:
  - middleware/cors.go: RateLimiter.Middleware, allowLocal (token bucket),
    allowRedis (distributed fixed window).
  - handlers/proxy.go: modifyRequest, replacePathParams, ProxyToService,
    ProxyToServiceWithPath (timeout race and error mapping).

Times are naturals counting nanoseconds (the unit of Go time.Duration).
The float truncation int(elapsed.Minutes() * float64(cap)) is modelled as
the exact floor (elapsed * cap / minuteNs).
-/

/-- One minute in nanoseconds, the value of Go time.Minute. -/
def minuteNs : Nat := 60000000000

/-- Per-client token bucket state: the clientLimit struct of
middleware/cors.go (fields tokens and lastRefill). -/
structure clientLimit where
  tokens : Nat
  lastRefill : Nat
deriving Repr, DecidableEq

/-- Refill phase of allowLocal (middleware/cors.go): when at least a minute
elapsed since lastRefill, reset the tokens to full capacity and advance
lastRefill; otherwise add the elapsed fraction of the capacity, cap at the
capacity, and advance lastRefill only when a nonzero amount was added. -/
def refill (cap : Nat) (b : clientLimit) (now : Nat) : clientLimit :=
  let elapsed := now - b.lastRefill
  if minuteNs ≤ elapsed then
    { tokens := cap, lastRefill := now }
  else
    let tokensToAdd := elapsed * cap / minuteNs
    { tokens := min (b.tokens + tokensToAdd) cap,
      lastRefill := if 0 < tokensToAdd then now else b.lastRefill }

/-- Spend phase of allowLocal: allow iff a token is available, consuming
one token when allowed. -/
def spend (b : clientLimit) : Bool × clientLimit :=
  if 0 < b.tokens then (true, { b with tokens := b.tokens - 1 }) else (false, b)

/-- allowLocal (middleware/cors.go): returns
(allowed, remaining, resetTime, new bucket state). remaining is the token
count after the optional decrement and resetTime is lastRefill plus one
minute, exactly as in the source. -/
def allowLocal (cap : Nat) (b : clientLimit) (now : Nat) :
    Bool × Nat × Nat × clientLimit :=
  let b1 := refill cap b now
  let s := spend b1
  (s.1, s.2.tokens, s.2.lastRefill + minuteNs, s.2)

/-- Monotonicity of a list of call timestamps, anchored below by prev:
prev ≤ t1 ≤ t2 ≤ ... -/
def sortedB : Nat → List Nat → Bool
  | _, [] => true
  | prev, t :: ts => decide (prev ≤ t) && sortedB t ts

/-- Number of calls the local token bucket allows among the calls with
timestamps ts whose timestamp falls inside the window [w, w + minuteNs). -/
def countAllowedIn (cap w : Nat) (b : clientLimit) : List Nat → Nat
  | [] => 0
  | t :: ts =>
    let r := allowLocal cap b t
    (if r.1 = true ∧ w ≤ t ∧ t < w + minuteNs then 1 else 0) +
      countAllowedIn cap w r.2.2.2 ts

/-- allowRedis (middleware/cors.go) modelled as a pure function of the
counter value before the atomic increment, the configured limit and the
clock: count is the value after INCR, remaining is limit - count floored
at zero (Nat subtraction), the window start is now truncated to the minute
and the reset time is the window start plus one minute. -/
def allowRedis (limit : Nat) (prevCount : Nat) (now : Nat) : Bool × Nat × Nat :=
  let count := prevCount + 1
  let remaining := limit - count
  let windowStart := now - now % minuteNs
  (decide (count ≤ limit), remaining, windowStart + minuteNs)

/-- Allowed-call count for k consecutive calls inside one fixed window of
the distributed strategy, with the shared counter currently at n: each call
increments the counter and is allowed iff the new value is at most the
limit. -/
def redisWindowCount (limit : Nat) : Nat → Nat → Nat
  | _, 0 => 0
  | n, k + 1 => (if n + 1 ≤ limit then 1 else 0) + redisWindowCount limit (n + 1) k

/-- Result of the rate limiter allow call as seen by the middleware:
either a triple (allowed, remaining, resetAt) or an error from the shared
store. -/
inductive AllowOutcome where
  | ok (allowed : Bool) (remaining : Nat) (resetAt : Nat)
  | err
deriving Repr, DecidableEq

/-- Externally visible effect of one pass through RateLimiter.Middleware. -/
structure MiddlewareEffect where
  nextCalled : Bool
  aborted429 : Bool
  rateHeadersSet : Bool
  retryAfterSet : Bool
  limiterConsulted : Bool
deriving Repr, DecidableEq

/-- Control flow of RateLimiter.Middleware (middleware/cors.go): disabled
rate limiting passes through immediately; an error from allow logs and
passes through; otherwise the X-RateLimit headers are set and the request
is either aborted with 429 (plus Retry-After) or passed on. -/
def middlewareStep (enabled : Bool) (outcome : AllowOutcome) : MiddlewareEffect :=
  if enabled = false then
    { nextCalled := true, aborted429 := false, rateHeadersSet := false,
      retryAfterSet := false, limiterConsulted := false }
  else
    match outcome with
    | .err =>
      { nextCalled := true, aborted429 := false, rateHeadersSet := false,
        retryAfterSet := false, limiterConsulted := true }
    | .ok allowed _ _ =>
      if allowed = false then
        { nextCalled := false, aborted429 := true, rateHeadersSet := true,
          retryAfterSet := true, limiterConsulted := true }
      else
        { nextCalled := true, aborted429 := false, rateHeadersSet := true,
          retryAfterSet := false, limiterConsulted := true }

/-- The parts of an http.Request that modifyRequest touches. -/
structure HttpRequest where
  host : String
  urlHost : String
  urlScheme : String
  remoteAddr : String
  headers : List (String × String)
deriving Repr, DecidableEq

/-- Header.Get: first value stored under the key, empty string if absent. -/
def headerGet (hs : List (String × String)) (k : String) : String :=
  match hs with
  | [] => ""
  | p :: rest => if p.1 == k then p.2 else headerGet rest k

/-- Header.Set: replace any existing values of the key with the single
given value. -/
def headerSet (hs : List (String × String)) (k v : String) :
    List (String × String) :=
  (k, v) :: hs.filter (fun p => !(p.1 == k))

/-- modifyRequest (handlers/proxy.go): in source order, first overwrite
req.Host, req.URL.Host and req.URL.Scheme with the target, then set
X-Forwarded-Host from the req.Host field, set X-Origin-Host to the target
host, set X-Real-IP to req.RemoteAddr only when the header is absent, and
stamp the X-Gateway identifier. -/
def modifyRequest (req : HttpRequest) (targetHost targetScheme : String) :
    HttpRequest :=
  let req1 := { req with host := targetHost, urlHost := targetHost,
                         urlScheme := targetScheme }
  let req2 := { req1 with headers := headerSet req1.headers "X-Forwarded-Host" req1.host }
  let req3 := { req2 with headers := headerSet req2.headers "X-Origin-Host" targetHost }
  let headers4 :=
    if headerGet req3.headers "X-Real-IP" == "" then
      headerSet req3.headers "X-Real-IP" req3.remoteAddr
    else req3.headers
  let req4 := { req3 with headers := headers4 }
  { req4 with headers := headerSet req4.headers "X-Gateway" "api-gateway" }

/-- Outcome of one dispatch through ProxyToService / ProxyToServiceWithPath:
a synthesized 500 configuration error, the backend response (the backend
call finished before the timer), a synthesized 504 timeout, or a partially
written response left untouched after the timer fired. -/
inductive DispatchOutcome where
  | configError
  | backendResult
  | timeout504
  | partialLeft
deriving Repr, DecidableEq

/-- ProxyToService (handlers/proxy.go): unknown service yields the 500
configuration error; otherwise the backend call races the timer; when the
timer fires first a 504 is synthesized only if nothing was written yet. -/
def ProxyToService (registered timerFirst written : Bool) : DispatchOutcome :=
  if registered = false then .configError
  else if timerFirst = false then .backendResult
  else if written = false then .timeout504
  else .partialLeft

/-- ProxyToServiceWithPath (handlers/proxy.go): identical dispatch control
flow to ProxyToService after the path rewrite. -/
def ProxyToServiceWithPath (registered timerFirst written : Bool) : DispatchOutcome :=
  if registered = false then .configError
  else if timerFirst = false then .backendResult
  else if written = false then .timeout504
  else .partialLeft

/-- Status code the gateway itself synthesizes for an outcome (none when
the backend response, complete or partial, is passed through). -/
def synthesizedStatus : DispatchOutcome → Option Nat
  | .configError => some 500
  | .timeout504 => some 504
  | _ => none

/-- error and message fields of the structured JSON body the gateway
synthesizes for an outcome. -/
def synthesizedBody : DispatchOutcome → Option (String × String)
  | .configError => some ("Internal Server Error", "Service configuration not found")
  | .timeout504 => some ("Gateway Timeout", "Backend service did not respond in time")
  | _ => none

/-- Whether pat is a leading segment of the character list. -/
def startsWith : List Char → List Char → Bool
  | [], _ => true
  | _ :: _, [] => false
  | a :: as, b :: bs => a == b && startsWith as bs

/-- strings.ReplaceAll on character lists, with explicit fuel; every step
consumes at least one character, so fuel equal to the length of the
subject suffices for the nonempty patterns used here. A match is replaced
and scanning resumes after the matched characters (non-overlapping). -/
def replaceAllGo (pat rep : List Char) : Nat → List Char → List Char
  | 0, s => s
  | _ + 1, [] => []
  | fuel + 1, c :: rest =>
    if startsWith pat (c :: rest) then
      rep ++ replaceAllGo pat rep fuel (List.drop (pat.length - 1) rest)
    else
      c :: replaceAllGo pat rep fuel rest

/-- strings.ReplaceAll on strings. -/
def replaceAllStr (s pat rep : String) : String :=
  ⟨replaceAllGo pat.data rep.data s.data.length s.data⟩

/-- replacePathParams (handlers/proxy.go): for each captured parameter in
order, replace every occurrence of the substring ":" ++ key in the path by
the captured value. -/
def replacePathParams (params : List (String × String)) (path : String) : String :=
  params.foldl (fun p kv => replaceAllStr p (":" ++ kv.1) kv.2) path

/-- Whether pat occurs as a contiguous substring of the character list. -/
def containsSub (pat : List Char) : List Char → Bool
  | [] => startsWith pat []
  | c :: rest => startsWith pat (c :: rest) || containsSub pat rest

theorem headerGet_set_same (hs : List (String × String)) (k v : String) :
    headerGet (headerSet hs k v) k = v := by
  simp [headerGet, headerSet]

theorem headerGet_filter_ne (k₁ k₂ : String) (h : (k₁ == k₂) = false) :
    ∀ hs : List (String × String),
      headerGet (hs.filter (fun p => !(p.1 == k₁))) k₂ = headerGet hs k₂ := by
  intro hs
  induction hs with
  | nil => rfl
  | cons a rest ih =>
    by_cases ha : (a.1 == k₁) = true
    · have he : a.1 = k₁ := eq_of_beq ha
      have ha2 : (a.1 == k₂) = false := by rw [he]; exact h
      simp [List.filter_cons, ha, headerGet, ha2, ih]
    · simp only [Bool.not_eq_true] at ha
      simp [List.filter_cons, ha, headerGet, ih]

theorem headerGet_set_other (hs : List (String × String)) (k₁ k₂ v : String)
    (h : (k₁ == k₂) = false) :
    headerGet (headerSet hs k₁ v) k₂ = headerGet hs k₂ := by
  simp [headerSet, headerGet, h, headerGet_filter_ne k₁ k₂ h hs]

/-- C3: when the shared store returns an unexpected error during an Allow
call in distributed mode, the middleware treats the request as allowed:
the request proceeds (c.Next is called) and no 429 denial is produced. -/
theorem store_error_fails_open :
    (middlewareStep true AllowOutcome.err).nextCalled = true ∧
    (middlewareStep true AllowOutcome.err).aborted429 = false := by
  decide

/-- C5: for every Allow call that reaches the shared store without error,
the distributed fixed-window result satisfies allowed = (count ≤ limit),
remaining = max 0 (limit - count) as integers, and resetAt is the current
window boundary (now truncated to the minute) plus one minute. -/
theorem allowRedis_result_spec (limit prevCount now : Nat) :
    ((allowRedis limit prevCount now).1 = true ↔ prevCount + 1 ≤ limit) ∧
    (((allowRedis limit prevCount now).2.1 : Int) =
      max 0 ((limit : Int) - (prevCount + 1))) ∧
    (allowRedis limit prevCount now).2.2 =
      minuteNs * (now / minuteNs) + minuteNs := by
  refine ⟨?_, ?_, ?_⟩
  · simp [allowRedis]
  · simp only [allowRedis]
    omega
  · simp only [allowRedis]
    have h := Nat.mod_add_div now minuteNs
    omega

/-- C7: with the backend registered, when the timeout elapses before the
backend call completes, a 504 Gateway Timeout is synthesized if and only
if no byte of a response has yet been written; when the response has
already begun, the dispatcher leaves it untouched. -/
theorem timeout_synthesizes_504_iff_unwritten :
    ∀ written : Bool,
      (ProxyToServiceWithPath true true written = .timeout504 ↔ written = false) ∧
      (written = true → ProxyToServiceWithPath true true written = .partialLeft) ∧
      (∀ w : Bool, ProxyToServiceWithPath true false w = .backendResult) := by
  decide

/-- C8: a service name with no registered backend proxy yields the 500
configuration error with the structured error and message body, and never
a 502 or 504, regardless of the timer race. -/
theorem unknown_service_is_config_error :
    ∀ timerFirst written : Bool,
      ProxyToService false timerFirst written = .configError ∧
      synthesizedStatus (ProxyToService false timerFirst written) = some 500 ∧
      synthesizedBody (ProxyToService false timerFirst written) =
        some ("Internal Server Error", "Service configuration not found") ∧
      synthesizedStatus (ProxyToService false timerFirst written) ≠ some 502 ∧
      synthesizedStatus (ProxyToService false timerFirst written) ≠ some 504 := by
  decide

/-- C9: when rate limiting is disabled in configuration, the middleware
lets every request through unconditionally: it calls next, consults no admission
strategy, and sets no X-RateLimit header. -/
theorem disabled_rate_limit_passes_through :
    ∀ outcome : AllowOutcome,
      (middlewareStep false outcome).nextCalled = true ∧
      (middlewareStep false outcome).rateHeadersSet = false ∧
      (middlewareStep false outcome).limiterConsulted = false := by
  intro outcome
  exact ⟨rfl, rfl, rfl⟩

/-- C1 (code bug evidence): the request mutation overwrites req.Host with
the target host before reading it back into X-Forwarded-Host, so the
X-Forwarded-Host header always carries the target backend host, never the
original inbound host; at a concrete request whose inbound host differs
from the target, the header therefore differs from the original host. The
other three mutations behave as claimed, shown at the same input: the
X-Origin-Host header is the target host, X-Real-IP is filled from
RemoteAddr because no X-Real-IP header was present, and X-Gateway is
stamped. -/
theorem forwarded_host_is_target_host :
    (∀ (req : HttpRequest) (targetHost targetScheme : String),
      headerGet (modifyRequest req targetHost targetScheme).headers
        "X-Forwarded-Host" = targetHost) ∧
    (headerGet (modifyRequest
        { host := "client.example.com", urlHost := "client.example.com",
          urlScheme := "http", remoteAddr := "10.0.0.7:4242", headers := [] }
        "backend.local:8080" "http").headers "X-Forwarded-Host" ≠
      "client.example.com") ∧
    (headerGet (modifyRequest
        { host := "client.example.com", urlHost := "client.example.com",
          urlScheme := "http", remoteAddr := "10.0.0.7:4242", headers := [] }
        "backend.local:8080" "http").headers "X-Origin-Host" =
      "backend.local:8080") ∧
    (headerGet (modifyRequest
        { host := "client.example.com", urlHost := "client.example.com",
          urlScheme := "http", remoteAddr := "10.0.0.7:4242", headers := [] }
        "backend.local:8080" "http").headers "X-Real-IP" = "10.0.0.7:4242") ∧
    (headerGet (modifyRequest
        { host := "client.example.com", urlHost := "client.example.com",
          urlScheme := "http", remoteAddr := "10.0.0.7:4242", headers := [] }
        "backend.local:8080" "http").headers "X-Gateway" = "api-gateway") := by
  refine ⟨?_, by decide, by decide, by decide, by decide⟩
  intro req tH tS
  simp only [modifyRequest]
  rw [headerGet_set_other _ "X-Gateway" "X-Forwarded-Host" _ (by decide)]
  split
  · rw [headerGet_set_other _ "X-Real-IP" "X-Forwarded-Host" _ (by decide),
        headerGet_set_other _ "X-Origin-Host" "X-Forwarded-Host" _ (by decide),
        headerGet_set_same]
  · rw [headerGet_set_other _ "X-Origin-Host" "X-Forwarded-Host" _ (by decide),
        headerGet_set_same]

theorem spend_tokens (b : clientLimit) :
    (spend b).2.tokens = b.tokens - (if 0 < b.tokens then 1 else 0) := by
  unfold spend
  split_ifs <;> rfl

theorem refill_tokens_frac (cap : Nat) (b : clientLimit) (now : Nat)
    (h : ¬ minuteNs ≤ now - b.lastRefill) :
    (refill cap b now).tokens =
      min (b.tokens + (now - b.lastRefill) * cap / minuteNs) cap := by
  unfold refill
  rw [if_neg h]

/-- C4: local token bucket refill behaviour of allowLocal: with a positive
configured capacity, a call after at least one idle minute is allowed and
reports remaining = capacity - 1; a call after a positive elapsed time
below one minute reports a remaining that exceeds the stored token count
by at most the floor of elapsed times capacity, and never exceeds the
capacity. -/
theorem allowLocal_refill_spec (cap : Nat) (b : clientLimit) (now : Nat)
    (hcap : 1 ≤ cap) :
    (minuteNs ≤ now - b.lastRefill →
      (allowLocal cap b now).1 = true ∧
      (allowLocal cap b now).2.1 = cap - 1) ∧
    (0 < now - b.lastRefill → now - b.lastRefill < minuteNs →
      (allowLocal cap b now).2.1 ≤
        b.tokens + (now - b.lastRefill) * cap / minuteNs ∧
      (allowLocal cap b now).2.1 ≤ cap) := by
  constructor
  · intro h
    simp only [allowLocal, refill, spend]
    rw [if_pos h]
    simp only []
    rw [if_pos (by omega : 0 < cap)]
    exact ⟨rfl, rfl⟩
  · intro h1 h2
    have e1 : (allowLocal cap b now).2.1 = (spend (refill cap b now)).2.tokens := rfl
    rw [e1, spend_tokens, refill_tokens_frac cap b now (by omega)]
    clear e1
    simp only [minuteNs] at *
    constructor <;> split_ifs <;> omega

theorem allowLocal_refill_spec_witness :
    (allowLocal 2 ⟨0, 0⟩ minuteNs).1 = true ∧
    (allowLocal 2 ⟨0, 0⟩ minuteNs).2.1 = 2 - 1 :=
  (allowLocal_refill_spec 2 ⟨0, 0⟩ minuteNs (by decide)).1 (by decide)

theorem replaceAllGo_of_not_contains (pat rep : List Char) :
    ∀ (s : List Char) (fuel : Nat), containsSub pat s = false →
      replaceAllGo pat rep fuel s = s := by
  intro s
  induction s with
  | nil => intro fuel _; cases fuel <;> rfl
  | cons c rest ih =>
    intro fuel h
    cases fuel with
    | zero => rfl
    | succ f =>
      simp only [containsSub, Bool.or_eq_false_iff] at h
      simp [replaceAllGo, h.1, ih f h.2]

theorem replaceAllStr_of_not_contains (s pat rep : String)
    (h : containsSub pat.data s.data = false) : replaceAllStr s pat rep = s := by
  unfold replaceAllStr
  rw [replaceAllGo_of_not_contains pat.data rep.data s.data s.data.length h]

theorem replacePathParams_of_no_placeholder :
    ∀ (params : List (String × String)) (path : String),
      (∀ kv ∈ params, containsSub (":" ++ kv.1).data path.data = false) →
      replacePathParams params path = path := by
  intro params
  induction params with
  | nil => intro path _; rfl
  | cons kv rest ih =>
    intro path h
    have h1 : replaceAllStr path (":" ++ kv.1) kv.2 = path :=
      replaceAllStr_of_not_contains path (":" ++ kv.1) kv.2 (h kv (by simp))
    calc replacePathParams (kv :: rest) path
        = replacePathParams rest (replaceAllStr path (":" ++ kv.1) kv.2) := rfl
      _ = replacePathParams rest path := by rw [h1]
      _ = path := ih path (fun kv2 hm => h kv2 (by simp [hm]))

/-- C6: path rewriting substitutes captured parameters for their :name
placeholders: the template /api/v1/tasks/:id with captured parameter
id = 42 rewrites to /api/v1/tasks/42, and a template in which no
placeholder of any captured parameter occurs is returned unchanged. -/
theorem path_rewrite_spec :
    replacePathParams [("id", "42")] "/api/v1/tasks/:id" = "/api/v1/tasks/42" ∧
    (∀ (params : List (String × String)) (path : String),
      (∀ kv ∈ params, containsSub (":" ++ kv.1).data path.data = false) →
      replacePathParams params path = path) :=
  ⟨by decide, replacePathParams_of_no_placeholder⟩

theorem path_rewrite_spec_witness :
    (∀ kv ∈ [(("id" : String), ("42" : String))],
      containsSub (":" ++ kv.1).data (String.data "/health") = false) ∧
    replacePathParams [("id", "42")] "/health" = "/health" :=
  ⟨by decide, path_rewrite_spec.2 [("id", "42")] "/health" (by decide)⟩

theorem startsWith_append_self : ∀ p t : List Char, startsWith p (p ++ t) = true := by
  intro p t
  induction p with
  | nil => rfl
  | cons a as ih => simp [startsWith, ih]

theorem replaceAllGo_fuel_congr (pat rep : List Char) :
    ∀ (f₁ : Nat) (s : List Char) (f₂ : Nat), s.length ≤ f₁ → s.length ≤ f₂ →
      replaceAllGo pat rep f₁ s = replaceAllGo pat rep f₂ s := by
  intro f₁
  induction f₁ with
  | zero =>
    intro s f₂ h1 _
    have hs : s = [] := List.eq_nil_of_length_eq_zero (Nat.le_zero.mp h1)
    subst hs
    cases f₂ <;> rfl
  | succ f ih =>
    intro s f₂ h1 h2
    cases s with
    | nil => cases f₂ <;> rfl
    | cons c rest =>
      cases f₂ with
      | zero => simp at h2
      | succ f₂ =>
        simp only [List.length_cons] at h1 h2
        simp only [replaceAllGo]
        by_cases hm : startsWith pat (c :: rest) = true
        · rw [if_pos hm, if_pos hm]
          have hd : (List.drop (pat.length - 1) rest).length ≤ rest.length := by
            rw [List.length_drop]; omega
          rw [ih (List.drop (pat.length - 1) rest) f₂ (by omega) (by omega)]
        · rw [if_neg hm, if_neg hm, ih rest f₂ (by omega) (by omega)]

theorem replaceAllGo_head_match (k rep b : List Char) :
    replaceAllGo (':' :: k) rep ((':' :: k) ++ b).length ((':' :: k) ++ b) =
      rep ++ replaceAllGo (':' :: k) rep b.length b := by
  have hlen : ((':' :: k) ++ b).length = (k ++ b).length + 1 := by simp
  rw [hlen]
  have hsw : startsWith (':' :: k) (':' :: (k ++ b)) = true :=
    startsWith_append_self (':' :: k) b
  show replaceAllGo (':' :: k) rep ((k ++ b).length + 1) (':' :: (k ++ b)) =
    rep ++ replaceAllGo (':' :: k) rep b.length b
  simp only [replaceAllGo]
  rw [if_pos hsw]
  have hdrop : List.drop ((':' :: k).length - 1) (k ++ b) = b := by
    simp only [List.length_cons, Nat.add_sub_cancel]
    exact List.drop_left k b
  rw [hdrop]
  rw [replaceAllGo_fuel_congr (':' :: k) rep ((k ++ b).length) b b.length
    (by simp) (Nat.le_refl _)]

/-- C10: parameter substitution is plain substring replacement: at the
claimed example the captured parameter id = 42 rewrites the segment :idx
to 42x (replacing inside a longer placeholder name), placeholders are
replaced anywhere in the template rather than only as whole segments, and
in general a template beginning with the placeholder :k has that substring
replaced by the value with scanning continuing on the remainder. -/
theorem path_param_substring_semantics :
    replacePathParams [("id", "42")] ":idx" = "42x" ∧
    replacePathParams [("id", "42")] "/api/v1/tasks/:idx/:id" =
      "/api/v1/tasks/42x/42" ∧
    (∀ k rep b : List Char,
      replaceAllGo (':' :: k) rep ((':' :: k) ++ b).length ((':' :: k) ++ b) =
        rep ++ replaceAllGo (':' :: k) rep b.length b) :=
  ⟨by decide, by decide, replaceAllGo_head_match⟩

theorem minuteNs_pos : 0 < minuteNs := by decide

theorem div_add_div_le (a b M : Nat) (hM : 0 < M) : a / M + b / M ≤ (a + b) / M := by
  rw [Nat.le_div_iff_mul_le hM]
  have h1 := Nat.div_mul_le_self a M
  have h2 := Nat.div_mul_le_self b M
  calc (a / M + b / M) * M = a / M * M + b / M * M := by ring
    _ ≤ a + b := Nat.add_le_add h1 h2

theorem spend_conserve (b : clientLimit) :
    (if (spend b).1 = true then 1 else 0) + (spend b).2.tokens = b.tokens := by
  unfold spend
  by_cases h : 0 < b.tokens
  · rw [if_pos h]
    simp
    omega
  · rw [if_neg h]
    simp

theorem spend_lastRefill (b : clientLimit) :
    (spend b).2.lastRefill = b.lastRefill := by
  unfold spend
  split_ifs <;> rfl

theorem refill_reset (cap : Nat) (b : clientLimit) (now : Nat)
    (h : minuteNs ≤ now - b.lastRefill) :
    refill cap b now = ⟨cap, now⟩ := by
  unfold refill
  rw [if_pos h]

theorem refill_frac_lastRefill (cap : Nat) (b : clientLimit) (now : Nat)
    (h : ¬ minuteNs ≤ now - b.lastRefill) :
    (refill cap b now).lastRefill =
      if 0 < (now - b.lastRefill) * cap / minuteNs then now else b.lastRefill := by
  unfold refill
  rw [if_neg h]

theorem refill_tokens_le (cap : Nat) (b : clientLimit) (now : Nat)
    (h : b.tokens ≤ cap) : (refill cap b now).tokens ≤ cap := by
  simp only [refill]
  split_ifs <;> simp

theorem sortedB_cons_true {prev t : Nat} {ts : List Nat}
    (h : sortedB prev (t :: ts) = true) : prev ≤ t ∧ sortedB t ts = true := by
  simpa [sortedB] using h

theorem sortedB_anchor {a prev : Nat} (h : a ≤ prev) :
    ∀ {ts : List Nat}, sortedB prev ts = true → sortedB a ts = true := by
  intro ts hs
  cases ts with
  | nil => rfl
  | cons t ts =>
    have h2 := sortedB_cons_true hs
    simp [sortedB, sortedB_cons_true, h2.2]
    omega

theorem countAllowedIn_cons (cap w : Nat) (b : clientLimit) (t : Nat)
    (ts : List Nat) :
    countAllowedIn cap w b (t :: ts) =
      (if (spend (refill cap b t)).1 = true ∧ w ≤ t ∧ t < w + minuteNs
        then 1 else 0) + countAllowedIn cap w (spend (refill cap b t)).2 ts := rfl

theorem count_contrib_inwin (c : Bool) (w t : Nat) (hw1 : w ≤ t)
    (hw2 : t < w + minuteNs) :
    (if c = true ∧ w ≤ t ∧ t < w + minuteNs then 1 else 0) =
      (if c = true then 1 else 0) := by
  by_cases hc : c = true <;> simp [hc, hw1, hw2]

theorem countAllowedIn_late (cap w : Nat) :
    ∀ (ts : List Nat) (b : clientLimit) (lo : Nat), w + minuteNs ≤ lo →
      sortedB lo ts = true → countAllowedIn cap w b ts = 0 := by
  intro ts
  induction ts with
  | nil => intros; rfl
  | cons t ts ih =>
    intro b lo hlo hs
    have h2 := sortedB_cons_true hs
    rw [countAllowedIn_cons]
    rw [if_neg (by rintro ⟨-, -, h3⟩; omega)]
    rw [ih _ t (by omega) h2.2]

theorem countAllowedIn_after_advance (cap w : Nat) :
    ∀ (ts : List Nat) (b : clientLimit),
      b.tokens ≤ cap → w ≤ b.lastRefill → sortedB b.lastRefill ts = true →
      countAllowedIn cap w b ts ≤
        b.tokens + (w + minuteNs - 1 - b.lastRefill) * cap / minuteNs := by
  intro ts
  induction ts with
  | nil => intro b _ _ _; exact Nat.zero_le _
  | cons t ts ih =>
    intro b htok hlr hs
    have hht := sortedB_cons_true hs
    rw [countAllowedIn_cons]
    by_cases hlate : w + minuteNs ≤ t
    · rw [if_neg (by rintro ⟨-, -, h3⟩; omega)]
      rw [countAllowedIn_late cap w ts _ t hlate hht.2]
      exact Nat.zero_le _
    · have hwt : w ≤ t := le_trans hlr hht.1
      have hfr : ¬ minuteNs ≤ t - b.lastRefill := by omega
      rw [count_contrib_inwin _ w t hwt (by omega)]
      have htok1 := refill_tokens_frac cap b t hfr
      have hlr1 := refill_frac_lastRefill cap b t hfr
      have hcons := spend_conserve (refill cap b t)
      have hslr := spend_lastRefill (refill cap b t)
      have htokle := refill_tokens_le cap b t htok
      have htok2 : (spend (refill cap b t)).2.tokens ≤ cap := by omega
      by_cases hpos : 0 < (t - b.lastRefill) * cap / minuteNs
      · have hlr1t : (refill cap b t).lastRefill = t := by
          rw [hlr1, if_pos hpos]
        have ihr := ih (spend (refill cap b t)).2 htok2
          (by rw [hslr, hlr1t]; exact hwt)
          (by rw [hslr, hlr1t]; exact hht.2)
        rw [hslr, hlr1t] at ihr
        have hdiv : (t - b.lastRefill) * cap / minuteNs +
            (w + minuteNs - 1 - t) * cap / minuteNs ≤
            (w + minuteNs - 1 - b.lastRefill) * cap / minuteNs := by
          have h1 := div_add_div_le ((t - b.lastRefill) * cap)
            ((w + minuteNs - 1 - t) * cap) minuteNs minuteNs_pos
          have h2 : (t - b.lastRefill) * cap + (w + minuteNs - 1 - t) * cap =
              (w + minuteNs - 1 - b.lastRefill) * cap := by
            rw [← Nat.add_mul]
            have h3 : t - b.lastRefill + (w + minuteNs - 1 - t) =
                w + minuteNs - 1 - b.lastRefill := by omega
            rw [h3]
          rw [h2] at h1
          exact h1
        omega
      · have hlr1t : (refill cap b t).lastRefill = b.lastRefill := by
          rw [hlr1, if_neg hpos]
        have ihr := ih (spend (refill cap b t)).2 htok2
          (by rw [hslr, hlr1t]; exact hlr)
          (by rw [hslr, hlr1t]; exact sortedB_anchor hht.1 hht.2)
        rw [hslr, hlr1t] at ihr
        omega

theorem countAllowedIn_near (cap w : Nat) (hcap : 1 ≤ cap) :
    ∀ (ts : List Nat) (b : clientLimit),
      b.tokens ≤ cap → (w - b.lastRefill) * cap < minuteNs →
      sortedB b.lastRefill ts = true →
      countAllowedIn cap w b ts ≤ b.tokens + cap := by
  intro ts
  induction ts with
  | nil => intro b _ _ _; exact Nat.zero_le _
  | cons t ts ih =>
    intro b htok hnear hs
    have hht := sortedB_cons_true hs
    have haux : w - b.lastRefill ≤ (w - b.lastRefill) * cap :=
      Nat.le_mul_of_pos_right _ hcap
    rw [countAllowedIn_cons]
    by_cases hlate : w + minuteNs ≤ t
    · rw [if_neg (by rintro ⟨-, -, h3⟩; omega)]
      rw [countAllowedIn_late cap w ts _ t hlate hht.2]
      exact Nat.zero_le _
    · by_cases hpre : t < w
      · -- before the window: a reset is impossible this close to w, and the
        -- fractional addition is zero, so the step only spends tokens.
        have hfr : ¬ minuteNs ≤ t - b.lastRefill := by omega
        have hadd : (t - b.lastRefill) * cap / minuteNs = 0 := by
          apply Nat.div_eq_of_lt
          calc (t - b.lastRefill) * cap ≤ (w - b.lastRefill) * cap :=
                Nat.mul_le_mul_right cap (by omega)
            _ < minuteNs := hnear
        have htok1 := refill_tokens_frac cap b t hfr
        have hlr1 := refill_frac_lastRefill cap b t hfr
        rw [hadd] at hlr1
        rw [if_neg (Nat.lt_irrefl 0)] at hlr1
        have hcons := spend_conserve (refill cap b t)
        have hslr := spend_lastRefill (refill cap b t)
        have htokle := refill_tokens_le cap b t htok
        have htok2 : (spend (refill cap b t)).2.tokens ≤ cap := by omega
        have ihr := ih (spend (refill cap b t)).2 htok2
          (by rw [hslr, hlr1]; exact hnear)
          (by rw [hslr, hlr1]; exact sortedB_anchor hht.1 hht.2)
        rw [if_neg (by rintro ⟨-, h2, -⟩; omega)]
        rw [hadd] at htok1
        omega
      · -- inside the window
        have hwt : w ≤ t := by omega
        rw [count_contrib_inwin _ w t hwt (by omega)]
        by_cases hres : minuteNs ≤ t - b.lastRefill
        · -- reset inside the window: it lands so late that no further
          -- refill fits before the window closes.
          rw [refill_reset cap b t hres]
          have hcons : (if (spend (⟨cap, t⟩ : clientLimit)).1 = true then 1 else 0) +
              (spend (⟨cap, t⟩ : clientLimit)).2.tokens = cap :=
            spend_conserve _
          have hslr : (spend (⟨cap, t⟩ : clientLimit)).2.lastRefill = t :=
            spend_lastRefill _
          have htok2 : (spend (⟨cap, t⟩ : clientLimit)).2.tokens ≤ cap := by
            omega
        -- the remaining fractional budget after the reset is zero
          have hAt : (w + minuteNs - 1 - t) * cap / minuteNs = 0 := by
            apply Nat.div_eq_of_lt
            calc (w + minuteNs - 1 - t) * cap ≤ (w - b.lastRefill) * cap :=
                  Nat.mul_le_mul_right cap (by omega)
              _ < minuteNs := hnear
          have ihr := countAllowedIn_after_advance cap w ts
            (spend (⟨cap, t⟩ : clientLimit)).2 htok2
            (by rw [hslr]; exact hwt) (by rw [hslr]; exact hht.2)
          rw [hslr, hAt] at ihr
          omega
        · have htok1 := refill_tokens_frac cap b t hres
          have hlr1 := refill_frac_lastRefill cap b t hres
          have hcons := spend_conserve (refill cap b t)
          have hslr := spend_lastRefill (refill cap b t)
          have htokle := refill_tokens_le cap b t htok
          have htok2 : (spend (refill cap b t)).2.tokens ≤ cap := by omega
          by_cases hpos : 0 < (t - b.lastRefill) * cap / minuteNs
          · have hlr1t : (refill cap b t).lastRefill = t := by
              rw [hlr1, if_pos hpos]
            have ihr := countAllowedIn_after_advance cap w ts
              (spend (refill cap b t)).2 htok2
              (by rw [hslr, hlr1t]; exact hwt)
              (by rw [hslr, hlr1t]; exact hht.2)
            rw [hslr, hlr1t] at ihr
            have hsum : (t - b.lastRefill) * cap / minuteNs +
                (w + minuteNs - 1 - t) * cap / minuteNs ≤
                (w + minuteNs - 1 - b.lastRefill) * cap / minuteNs := by
              have h1 := div_add_div_le ((t - b.lastRefill) * cap)
                ((w + minuteNs - 1 - t) * cap) minuteNs minuteNs_pos
              have h2 : (t - b.lastRefill) * cap +
                  (w + minuteNs - 1 - t) * cap =
                  (w + minuteNs - 1 - b.lastRefill) * cap := by
                rw [← Nat.add_mul]
                have h3 : t - b.lastRefill + (w + minuteNs - 1 - t) =
                    w + minuteNs - 1 - b.lastRefill := by omega
                rw [h3]
              rw [h2] at h1
              exact h1
            have hAlr : (w + minuteNs - 1 - b.lastRefill) * cap / minuteNs ≤ cap := by
              have e1 : w + minuteNs - 1 - b.lastRefill ≤
                  (w - b.lastRefill) + (minuteNs - 1) := by omega
              have e2 : (w + minuteNs - 1 - b.lastRefill) * cap ≤
                  ((w - b.lastRefill) + (minuteNs - 1)) * cap :=
                Nat.mul_le_mul_right cap e1
              have e3 : ((w - b.lastRefill) + (minuteNs - 1)) * cap =
                  (w - b.lastRefill) * cap + (minuteNs - 1) * cap :=
                Nat.add_mul _ _ _
              have e4 : (minuteNs - 1) * cap = minuteNs * cap - 1 * cap :=
                Nat.sub_mul _ _ _
              have e5 : (w + minuteNs - 1 - b.lastRefill) * cap <
                  (cap + 1) * minuteNs := by
                have e6 : (cap + 1) * minuteNs = cap * minuteNs + minuteNs := by
                  ring
                have e7 : minuteNs * cap = cap * minuteNs := Nat.mul_comm _ _
                have e8 : 0 < minuteNs := minuteNs_pos
                omega
              have e9 := (Nat.div_lt_iff_lt_mul minuteNs_pos).mpr e5
              omega
            omega
          · have hlr1t : (refill cap b t).lastRefill = b.lastRefill := by
              rw [hlr1, if_neg hpos]
            have ihr := ih (spend (refill cap b t)).2 htok2
              (by rw [hslr, hlr1t]; exact hnear)
              (by rw [hslr, hlr1t]; exact sortedB_anchor hht.1 hht.2)
            omega

theorem countAllowedIn_cap_zero (w : Nat) :
    ∀ (ts : List Nat) (b : clientLimit), b.tokens = 0 →
      countAllowedIn 0 w b ts = 0 := by
  intro ts
  induction ts with
  | nil => intros; rfl
  | cons t ts ih =>
    intro b h0
    rw [countAllowedIn_cons]
    have ht : (refill 0 b t).tokens = 0 := by
      by_cases hr : minuteNs ≤ t - b.lastRefill
      · rw [refill_reset 0 b t hr]
      · rw [refill_tokens_frac 0 b t hr]
        simp
    have hcons := spend_conserve (refill 0 b t)
    have hx : (if (spend (refill 0 b t)).1 = true then 1 else 0) = 0 := by omega
    have hfl : ¬ ((spend (refill 0 b t)).1 = true) := by
      intro hh
      rw [if_pos hh] at hx
      exact one_ne_zero hx
    rw [if_neg (by rintro ⟨h1, -⟩; exact hfl h1)]
    have hy : (spend (refill 0 b t)).2.tokens = 0 := by omega
    rw [ih _ hy]

theorem frac_budget_le_cap (cap w t : Nat) (hwt : w ≤ t) :
    (w + minuteNs - 1 - t) * cap / minuteNs ≤ cap := by
  have e1 : (w + minuteNs - 1 - t) * cap ≤ (minuteNs - 1) * cap :=
    Nat.mul_le_mul_right cap (by omega)
  have e2 : (minuteNs - 1) * cap = minuteNs * cap - 1 * cap := Nat.sub_mul _ _ _
  have e5 : (w + minuteNs - 1 - t) * cap < (cap + 1) * minuteNs := by
    have e6 : (cap + 1) * minuteNs = cap * minuteNs + minuteNs := by ring
    have e7 : minuteNs * cap = cap * minuteNs := Nat.mul_comm _ _
    have e8 := minuteNs_pos
    omega
  have e9 := (Nat.div_lt_iff_lt_mul minuteNs_pos).mpr e5
  omega

theorem countAllowedIn_le_two_cap (cap w : Nat) :
    ∀ (ts : List Nat) (b : clientLimit),
      b.tokens ≤ cap → sortedB b.lastRefill ts = true →
      countAllowedIn cap w b ts ≤ 2 * cap := by
  rcases Nat.eq_zero_or_pos cap with hc0 | hcap
  · subst hc0
    intro ts b htok _
    rw [countAllowedIn_cap_zero w ts b (by omega)]
  · intro ts
    induction ts with
    | nil => intro b _ _; exact Nat.zero_le _
    | cons t ts ih =>
      intro b htok hs
      have hht := sortedB_cons_true hs
      by_cases hlate : w + minuteNs ≤ t
      · rw [countAllowedIn_cons, if_neg (by rintro ⟨-, -, h3⟩; omega),
            countAllowedIn_late cap w ts _ t hlate hht.2]
        exact Nat.zero_le _
      · by_cases hpre : t < w
        · rw [countAllowedIn_cons, if_neg (by rintro ⟨-, h2, -⟩; omega)]
          have htokle := refill_tokens_le cap b t htok
          have hcons := spend_conserve (refill cap b t)
          have hslr := spend_lastRefill (refill cap b t)
          have htok2 : (spend (refill cap b t)).2.tokens ≤ cap := by omega
          have hlr2 : (spend (refill cap b t)).2.lastRefill ≤ t := by
            rw [hslr]
            by_cases hr : minuteNs ≤ t - b.lastRefill
            · rw [refill_reset cap b t hr]
            · rw [refill_frac_lastRefill cap b t hr]
              split_ifs <;> omega
          have ihr := ih (spend (refill cap b t)).2 htok2
            (sortedB_anchor hlr2 hht.2)
          omega
        · have hwt : w ≤ t := by omega
          by_cases hres : minuteNs ≤ t - b.lastRefill
          · rw [countAllowedIn_cons, refill_reset cap b t hres,
                count_contrib_inwin _ w t hwt (by omega)]
            have hcons : (if (spend (⟨cap, t⟩ : clientLimit)).1 = true
                  then 1 else 0) +
                (spend (⟨cap, t⟩ : clientLimit)).2.tokens = cap :=
              spend_conserve _
            have hslr : (spend (⟨cap, t⟩ : clientLimit)).2.lastRefill = t :=
              spend_lastRefill _
            have htok2 : (spend (⟨cap, t⟩ : clientLimit)).2.tokens ≤ cap := by
              omega
            have ihr := countAllowedIn_after_advance cap w ts
              (spend (⟨cap, t⟩ : clientLimit)).2 htok2
              (by rw [hslr]; exact hwt) (by rw [hslr]; exact hht.2)
            rw [hslr] at ihr
            have hAt := frac_budget_le_cap cap w t hwt
            omega
          · have htok1 := refill_tokens_frac cap b t hres
            have hlr1 := refill_frac_lastRefill cap b t hres
            by_cases hpos : 0 < (t - b.lastRefill) * cap / minuteNs
            · rw [countAllowedIn_cons, count_contrib_inwin _ w t hwt (by omega)]
              have hcons := spend_conserve (refill cap b t)
              have hslr := spend_lastRefill (refill cap b t)
              have htokle := refill_tokens_le cap b t htok
              have htok2 : (spend (refill cap b t)).2.tokens ≤ cap := by omega
              have hlr1t : (refill cap b t).lastRefill = t := by
                rw [hlr1, if_pos hpos]
              have ihr := countAllowedIn_after_advance cap w ts
                (spend (refill cap b t)).2 htok2
                (by rw [hslr, hlr1t]; exact hwt)
                (by rw [hslr, hlr1t]; exact hht.2)
              rw [hslr, hlr1t] at ihr
              have hAt := frac_budget_le_cap cap w t hwt
              omega
            · have hnum : (t - b.lastRefill) * cap < minuteNs := by
                rcases Nat.lt_or_ge ((t - b.lastRefill) * cap) minuteNs with h | h
                · exact h
                · exact absurd ((Nat.one_le_div_iff minuteNs_pos).mpr h)
                    (by omega)
              have hnear : (w - b.lastRefill) * cap < minuteNs := by
                have h1 : (w - b.lastRefill) * cap ≤ (t - b.lastRefill) * cap :=
                  Nat.mul_le_mul_right cap (by omega)
                omega
              have hE := countAllowedIn_near cap w hcap (t :: ts) b htok hnear hs
              omega

theorem redisWindowCount_le (limit : Nat) :
    ∀ (k n : Nat), redisWindowCount limit n k ≤ limit - n := by
  intro k
  induction k with
  | zero => intro n; exact Nat.zero_le _
  | succ k ih =>
    intro n
    have h := ih (n + 1)
    show (if n + 1 ≤ limit then 1 else 0) + redisWindowCount limit (n + 1) k ≤
      limit - n
    split_ifs with hle <;> omega

/-- C2 (counterexample): as stated, the invariant fails for the local token
bucket: a freshly created bucket with capacity (limit) 2 allows two calls
at time 0 and, after the fractional refill, a third call at 30 seconds,
all inside the rolling one-minute window starting at 0, so 3 calls are
allowed against a limit of 2. -/
theorem local_rolling_window_exceeds_limit :
    sortedB (0 : Nat) [0, 0, 30000000000] = true ∧
    (⟨2, 0⟩ : clientLimit).tokens ≤ 2 ∧
    2 < countAllowedIn 2 0 ⟨2, 0⟩ [0, 0, 30000000000] := by
  decide

/-- C2 (amended): for the distributed fixed-window strategy, the number of
allowed calls within one fixed window never exceeds the configured limit;
for the local token-bucket strategy, the number of allowed calls within
any rolling one-minute window can exceed the limit but never exceeds
twice the limit. -/
theorem admission_window_bounds :
    (∀ limit k : Nat, redisWindowCount limit 0 k ≤ limit) ∧
    (∀ (cap w : Nat) (b : clientLimit) (ts : List Nat),
      b.tokens ≤ cap → sortedB b.lastRefill ts = true →
      countAllowedIn cap w b ts ≤ 2 * cap) := by
  constructor
  · intro limit k
    have h := redisWindowCount_le limit k 0
    omega
  · intro cap w b ts h1 h2
    exact countAllowedIn_le_two_cap cap w ts b h1 h2

theorem admission_window_bounds_witness :
    sortedB (0 : Nat) [0, 0, 30000000000] = true ∧
    countAllowedIn 2 0 ⟨2, 0⟩ [0, 0, 30000000000] ≤ 2 * 2 ∧
    redisWindowCount 5 0 7 ≤ 5 :=
  ⟨by decide,
   admission_window_bounds.2 2 0 ⟨2, 0⟩ [0, 0, 30000000000] (by decide) (by decide),
   admission_window_bounds.1 5 7⟩
